import Mathlib

/-!
# Verification of the escriptorium YOLO extension detection pipeline

Shallow embedding of the detection post-processing pipeline implemented in
`src/popup/popup.js`: the preprocessor (`preprocess`, lines 391-419), the box
decoder and score/class reduction inside `detect` (lines 423-471), the NMS
suppression stage invoked at line 458, the coordinate rebaser (`renderBoxes`,
lines 473-502), and the tensor lifecycle of a `detect` call.

All numeric values are modelled as exact rationals (`ℚ`).  Image dimensions
are natural numbers.  Tensor contents are modelled as lists of rationals; the
pixel-level resize/normalise work of the preprocessor is not needed by any
claim and only its geometry (padding amounts and ratios) is embedded.
-/

namespace Popup

/-! ## Preprocessor (`preprocess`, popup.js lines 391-419) -/

/-- Geometry produced by `preprocess`.  The source pads the image tensor with
`img.pad [[0, maxSize - h], [0, maxSize - w], [0, 0]]` — the first pair is the
y axis (top pad `0`, bottom pad `maxSize - h`), the second the x axis (left
pad `0`, right pad `maxSize - w`) — and sets `xRatio = maxSize / w`,
`yRatio = maxSize / h`.  The ratio fields use exact rational division; they
are meaningful for positive `w`, `h` (the source performs no validation, and
JavaScript division would produce `Infinity` at `w = 0` where `ℚ` yields `0`;
no theorem below depends on a ratio value at a zero dimension). -/
structure PreprocessResult where
  padTop : ℕ
  padLeft : ℕ
  padBottom : ℕ
  padRight : ℕ
  squareSide : ℕ
  xRatio : ℚ
  yRatio : ℚ
deriving Repr, DecidableEq

/-- Embedding of the geometry computed by `preprocess` in popup.js: given the
source image's intrinsic width `w` and height `h`, pad bottom/right to a
square of side `maxSize = max w h` and return the ratios. -/
def preprocess (w h : ℕ) : PreprocessResult :=
  let maxSize := max w h
  { padTop := 0
    padLeft := 0
    padBottom := maxSize - h
    padRight := maxSize - w
    squareSide := maxSize
    xRatio := (maxSize : ℚ) / (w : ℚ)
    yRatio := (maxSize : ℚ) / (h : ℚ) }

/-! ## Box Decoder (`detect`, popup.js lines 433-450) -/

/-- Decode one row of the transposed `[1, N, 4+C]` tensor, exactly as the
`boxes` tidy block of `detect` does: `w` is attribute 2, `h` is attribute 3,
`x1 = cx - w/2` with `cx` attribute 0, `y1 = cy - h/2` with `cy` attribute 1,
and the concatenation emits `(y1, x1, y1 + h, x1 + w)` in that order. -/
def decodeRow (row : List ℚ) : ℚ × ℚ × ℚ × ℚ :=
  let w := row.getD 2 0
  let h := row.getD 3 0
  let x1 := row.getD 0 0 - w / 2
  let y1 := row.getD 1 0 - h / 2
  (y1, x1, y1 + h, x1 + w)

/-- The logical transpose `res.transpose([0, 2, 1])` of `detect`: the raw
output is attribute-major (`[1, 4+C, N]`, one inner list per attribute) and
the transpose makes it detection-major (`[1, N, 4+C]`, one inner list per
detection). -/
def transposeOutput (raw : List (List ℚ)) : List (List ℚ) :=
  raw.transpose

/-- All `N` rows of the transposed tensor are decoded; no confidence
threshold is applied at this stage. -/
def decodeBoxes (trans : List (List ℚ)) : List (ℚ × ℚ × ℚ × ℚ) :=
  trans.map decodeRow

/-- C2: for every image with intrinsic width `w > 0` and height `h > 0`,
`preprocess` pads only on bottom and right (top and left pads are zero) up to
a square of side `max w h`, and returns `xRatio = maxSize / w` and
`yRatio = maxSize / h` with `xRatio * w = maxSize` and `yRatio * h = maxSize`
exactly; when `w = h` both ratios equal `1`. -/
theorem preprocess_spec (w h : ℕ) (hw : 0 < w) (hh : 0 < h) :
    (preprocess w h).padTop = 0 ∧
    (preprocess w h).padLeft = 0 ∧
    h + (preprocess w h).padBottom = (preprocess w h).squareSide ∧
    w + (preprocess w h).padRight = (preprocess w h).squareSide ∧
    (preprocess w h).squareSide = max w h ∧
    (preprocess w h).xRatio * (w : ℚ) = ((max w h : ℕ) : ℚ) ∧
    (preprocess w h).yRatio * (h : ℚ) = ((max w h : ℕ) : ℚ) ∧
    (w = h → (preprocess w h).xRatio = 1 ∧ (preprocess w h).yRatio = 1) := by
  refine ⟨rfl, rfl, ?_, ?_, rfl, ?_, ?_, ?_⟩
  · simp only [preprocess]
    omega
  · simp only [preprocess]
    omega
  · simp only [preprocess]
    exact div_mul_cancel₀ _ (Nat.cast_ne_zero.mpr hw.ne')
  · simp only [preprocess]
    exact div_mul_cancel₀ _ (Nat.cast_ne_zero.mpr hh.ne')
  · rintro rfl
    constructor
    · simp only [preprocess, max_self]
      exact div_self (Nat.cast_ne_zero.mpr hw.ne')
    · simp only [preprocess, max_self]
      exact div_self (Nat.cast_ne_zero.mpr hh.ne')

/-- Witness for `preprocess_spec` at the concrete image size `w = 3`,
`h = 5`. -/
theorem preprocess_spec_witness :
    (preprocess 3 5).xRatio * ((3 : ℕ) : ℚ) = ((max 3 5 : ℕ) : ℚ) :=
  (preprocess_spec 3 5 (by norm_num) (by norm_num)).2.2.2.2.2.1

/-- C1: each decoded box satisfies `x1 = cx - w/2`, `y1 = cy - h/2`,
`y2 = y1 + h = cy + h/2`, `x2 = x1 + w = cx + w/2`, emitted in
`(y1, x1, y2, x2)` order; the attributes `cx = 50, cy = 50, w = 20, h = 10`
decode to `(45, 40, 55, 60)`; and all `N` detections are decoded (no
confidence threshold at this stage). -/
theorem decodeRow_spec :
    (∀ row : List ℚ,
      decodeRow row =
        (row.getD 1 0 - row.getD 3 0 / 2,
         row.getD 0 0 - row.getD 2 0 / 2,
         row.getD 1 0 + row.getD 3 0 / 2,
         row.getD 0 0 + row.getD 2 0 / 2)) ∧
    decodeRow [50, 50, 20, 10] = (45, 40, 55, 60) ∧
    (∀ trans : List (List ℚ), (decodeBoxes trans).length = trans.length) := by
  refine ⟨fun row => ?_, ?_, fun trans => by simp [decodeBoxes]⟩
  · simp only [decodeRow, Prod.mk.injEq]
    exact ⟨trivial, trivial, by ring, by ring⟩
  · norm_num [decodeRow]

/-! ## Score and class reduction (`detect`, popup.js lines 452-456)

The source computes `rawScores.max(1)` and `rawScores.argMax(1)` over the
slice `transRes.slice([0, 0, 4], [-1, -1, numClass])`.  `max` and `argMax`
are TensorFlow.js library reductions.  Modelled from the spec: `score` is the
maximum of the `C` class scores (attributes `4 .. 4+C-1`) and `classId` the
index of the first maximum (ties resolved to the lowest index, first-seen
wins), which is the documented semantics of the library `argMax`. -/

/-- Maximum of a list of scores (a score slice is never empty for a model
with at least one class; the `[]` case is junk). -/
def maxScore : List ℚ → ℚ
  | [] => 0
  | x :: xs => xs.foldl max x

/-- Linear scan computing the index of the first maximum.  `i` is the index
of the head of `xs` in the full list, `best` the index of the running
maximum `bv`; the running maximum is replaced only on a strict increase, so
earlier indices win ties. -/
def argmaxAux : List ℚ → ℕ → ℕ → ℚ → ℕ
  | [], _, best, _ => best
  | x :: xs, i, best, bv =>
    if bv < x then argmaxAux xs (i + 1) i x else argmaxAux xs (i + 1) best bv

/-- Index of the first maximal element of a score list. -/
def argmaxFirst : List ℚ → ℕ
  | [] => 0
  | x :: xs => argmaxAux xs 1 0 x

/-- The class-score slice of a detection row: attributes `4 .. 4+C-1`. -/
def classScores (numClass : ℕ) (row : List ℚ) : List ℚ :=
  (row.drop 4).take numClass

/-- Per-detection score: maximum over the class scores. -/
def scoreOfRow (numClass : ℕ) (row : List ℚ) : ℚ :=
  maxScore (classScores numClass row)

/-- Per-detection class id: index of the first maximal class score. -/
def classOfRow (numClass : ℕ) (row : List ℚ) : ℕ :=
  argmaxFirst (classScores numClass row)

lemma le_foldl_max (xs : List ℚ) (b : ℚ) :
    b ≤ xs.foldl max b ∧ ∀ x ∈ xs, x ≤ xs.foldl max b := by
  induction xs generalizing b with
  | nil => simp
  | cons y ys ih =>
    obtain ⟨h1, h2⟩ := ih (max b y)
    refine ⟨le_trans (le_max_left _ _) h1, ?_⟩
    intro x hx
    rcases List.mem_cons.mp hx with rfl | hx
    · exact le_trans (le_max_right _ _) h1
    · exact h2 x hx

lemma argmaxAux_spec (xs : List ℚ) :
    ∀ (i best : ℕ) (bv : ℚ),
      (argmaxAux xs i best bv = best ∧ xs.foldl max bv = bv) ∨
      (∃ j, j < xs.length ∧ argmaxAux xs i best bv = i + j ∧
        xs.getD j 0 = xs.foldl max bv ∧ bv < xs.foldl max bv ∧
        ∀ k, k < j → xs.getD k 0 < xs.foldl max bv) := by
  induction xs with
  | nil => exact fun i best bv => Or.inl ⟨rfl, rfl⟩
  | cons x xs ih =>
    intro i best bv
    by_cases hlt : bv < x
    · have hfold : (x :: xs).foldl max bv = xs.foldl max x := by
        simp [max_eq_right hlt.le]
      have hstep : argmaxAux (x :: xs) i best bv = argmaxAux xs (i + 1) i x := by
        simp [argmaxAux, hlt]
      rcases ih (i + 1) i x with ⟨h1, h2⟩ | ⟨j, hj, h1, h2, h3, h4⟩
      · refine Or.inr ⟨0, by simp, ?_, ?_, ?_,
          fun k hk => absurd hk (Nat.not_lt_zero k)⟩
        · rw [hstep, h1]; omega
        · rw [List.getD_cons_zero, hfold, h2]
        · rw [hfold, h2]; exact hlt
      · refine Or.inr ⟨j + 1, by simpa using hj, ?_, ?_, ?_, ?_⟩
        · rw [hstep, h1]; omega
        · rw [List.getD_cons_succ, hfold]; exact h2
        · rw [hfold]; exact hlt.trans h3
        · intro k hk
          rw [hfold]
          cases k with
          | zero => rw [List.getD_cons_zero]; exact h3
          | succ k' => rw [List.getD_cons_succ]; exact h4 k' (by omega)
    · have hle : x ≤ bv := not_lt.mp hlt
      have hfold : (x :: xs).foldl max bv = xs.foldl max bv := by
        simp [max_eq_left hle]
      have hstep : argmaxAux (x :: xs) i best bv = argmaxAux xs (i + 1) best bv := by
        simp [argmaxAux, hlt]
      rcases ih (i + 1) best bv with ⟨h1, h2⟩ | ⟨j, hj, h1, h2, h3, h4⟩
      · exact Or.inl ⟨by rw [hstep, h1], by rw [hfold, h2]⟩
      · refine Or.inr ⟨j + 1, by simpa using hj, ?_, ?_, ?_, ?_⟩
        · rw [hstep, h1]; omega
        · rw [List.getD_cons_succ, hfold]; exact h2
        · rw [hfold]; exact h3
        · intro k hk
          rw [hfold]
          cases k with
          | zero => rw [List.getD_cons_zero]; exact hle.trans_lt h3
          | succ k' => rw [List.getD_cons_succ]; exact h4 k' (by omega)

/-- C5: for every detection row whose class-score slice is nonempty, the
emitted score is the maximum over the `C` class scores and the emitted class
id is the argmax index with ties broken by the lowest index (every score
strictly before the chosen index is strictly below the maximum); concretely,
two classes sharing the maximal score `3/4` resolve to class `0`. -/
theorem scoreClass_spec (numClass : ℕ) (row : List ℚ)
    (hne : classScores numClass row ≠ []) :
    (classScores numClass row).getD (classOfRow numClass row) 0 =
      scoreOfRow numClass row ∧
    (∀ x ∈ classScores numClass row, x ≤ scoreOfRow numClass row) ∧
    (∀ k, k < classOfRow numClass row →
      (classScores numClass row).getD k 0 < scoreOfRow numClass row) ∧
    classOfRow 2 [0, 0, 0, 0, (3 : ℚ)/4, (3 : ℚ)/4] = 0 := by
  obtain ⟨x, xs, hl⟩ : ∃ x xs, classScores numClass row = x :: xs := by
    cases h : classScores numClass row with
    | nil => exact absurd h hne
    | cons a l => exact ⟨a, l, rfl⟩
  have htie : classOfRow 2 [0, 0, 0, 0, (3 : ℚ)/4, (3 : ℚ)/4] = 0 := by
    norm_num [classOfRow, classScores, argmaxFirst, argmaxAux]
  simp only [scoreOfRow, classOfRow, hl, maxScore, argmaxFirst]
  rcases argmaxAux_spec xs 1 0 x with ⟨h1, h2⟩ | ⟨j, hj, h1, h2, h3, h4⟩
  · refine ⟨?_, ?_, ?_, htie⟩
    · rw [h1, List.getD_cons_zero, h2]
    · intro y hy
      rcases List.mem_cons.mp hy with rfl | hy
      · exact (le_foldl_max xs y).1
      · exact (le_foldl_max xs x).2 y hy
    · intro k hk
      rw [h1] at hk
      exact absurd hk (Nat.not_lt_zero k)
  · refine ⟨?_, ?_, ?_, htie⟩
    · rw [h1]
      have : 1 + j = j + 1 := by omega
      rw [this, List.getD_cons_succ]
      exact h2
    · intro y hy
      rcases List.mem_cons.mp hy with rfl | hy
      · exact (le_foldl_max xs y).1
      · exact (le_foldl_max xs x).2 y hy
    · intro k hk
      rw [h1] at hk
      cases k with
      | zero => rw [List.getD_cons_zero]; exact h3
      | succ k' => rw [List.getD_cons_succ]; exact h4 k' (by omega)

/-- Witness for `scoreClass_spec` at the concrete row
`[0, 0, 0, 0, 1/2, 3/4]` with two classes. -/
theorem scoreClass_spec_witness :
    (classScores 2 [0, 0, 0, 0, (1 : ℚ)/2, (3 : ℚ)/4]).getD
        (classOfRow 2 [0, 0, 0, 0, (1 : ℚ)/2, (3 : ℚ)/4]) 0 =
      scoreOfRow 2 [0, 0, 0, 0, (1 : ℚ)/2, (3 : ℚ)/4] :=
  (scoreClass_spec 2 [0, 0, 0, 0, (1 : ℚ)/2, (3 : ℚ)/4]
    (by simp [classScores])).1

/-! ## Coordinate Rebaser (`renderBoxes`, popup.js lines 473-502) -/

/-- A final annotation record: polygon plus typology.  `typology` models the
JavaScript value of `typeMappings[labels[classes_data[i]]]`, which is
`undefined` (here `none`) when the class id is out of range of `labels` or
when the label has no entry in `typeMappings`. -/
structure BlockRecord (τ : Type) where
  box : List (ℚ × ℚ)
  typology : Option τ
deriving Repr, DecidableEq

/-- The typology lookup of `renderBoxes`:
`typeMappings[labels[classes_data[i]]]`. -/
def lookupTypology {τ : Type} (typeMappings : String → Option τ)
    (labels : List String) (classId : ℕ) : Option τ :=
  match labels[classId]? with
  | some lab => typeMappings lab
  | none => none

/-- Embedding of `renderBoxes`: one annotation per entry of `scores_data`, in
input order.  For each `i` the source destructures
`boxes_data.slice(i*4, (i+1)*4)` as `[y1, x1, y2, x2]`, multiplies both x
coordinates by `ratios[0] * (ImageOriginalWidth / modelWidth)` and both y
coordinates by `ratios[1] * (ImageOriginalHeight / modelHeight)`, and pushes
`{ box: [[x1, y1], [x2, y1], [x2, y2], [x1, y2]], typology: ... }`.  (The
source also computes local `score`, `width` and `height` values that never
enter the record.)  The module-level globals `ImageOriginalWidth` and
`ImageOriginalHeight` are passed explicitly here. -/
def renderBoxes {τ : Type} (typeMappings : String → Option τ)
    (labels : List String) (imageOriginalWidth imageOriginalHeight : ℚ)
    (boxes_data scores_data : List ℚ) (classes_data : List ℕ)
    (ratios : ℚ × ℚ) (modelWidth modelHeight : ℚ) : List (BlockRecord τ) :=
  (List.range scores_data.length).map fun i =>
    let y1 := boxes_data.getD (i * 4) 0 *
      (ratios.2 * (imageOriginalHeight / modelHeight))
    let x1 := boxes_data.getD (i * 4 + 1) 0 *
      (ratios.1 * (imageOriginalWidth / modelWidth))
    let y2 := boxes_data.getD (i * 4 + 2) 0 *
      (ratios.2 * (imageOriginalHeight / modelHeight))
    let x2 := boxes_data.getD (i * 4 + 3) 0 *
      (ratios.1 * (imageOriginalWidth / modelWidth))
    { box := [(x1, y1), (x2, y1), (x2, y2), (x1, y2)]
      typology := lookupTypology typeMappings labels (classes_data.getD i 0) }

/-- C3: every surviving box `(y1, x1, y2, x2)` is rescaled with
`scaleX = xRatio * (originalWidth / modelWidth)` on `x1`, `x2` and
`scaleY = yRatio * (originalHeight / modelHeight)` on `y1`, `y2`, and emitted
as the polygon `(x1', y1') (x2', y1') (x2', y2') (x1', y2')`; when both
ratios are `1` and the model dimensions equal the (nonzero) original
dimensions, the rebasing is the identity on the box coordinates. -/
theorem renderBoxes_rebase {τ : Type} (tm : String → Option τ)
    (labels : List String) (W H : ℚ) (bd sd : List ℚ) (cd : List ℕ)
    (xr yr mw mh : ℚ) (i : ℕ) (hi : i < sd.length) :
    ((renderBoxes tm labels W H bd sd cd (xr, yr) mw mh)[i]? =
      some { box := [(bd.getD (i * 4 + 1) 0 * (xr * (W / mw)),
                      bd.getD (i * 4) 0 * (yr * (H / mh))),
                     (bd.getD (i * 4 + 3) 0 * (xr * (W / mw)),
                      bd.getD (i * 4) 0 * (yr * (H / mh))),
                     (bd.getD (i * 4 + 3) 0 * (xr * (W / mw)),
                      bd.getD (i * 4 + 2) 0 * (yr * (H / mh))),
                     (bd.getD (i * 4 + 1) 0 * (xr * (W / mw)),
                      bd.getD (i * 4 + 2) 0 * (yr * (H / mh)))],
             typology := lookupTypology tm labels (cd.getD i 0) }) ∧
    (xr = 1 → yr = 1 → mw = W → mh = H → W ≠ 0 → H ≠ 0 →
      (renderBoxes tm labels W H bd sd cd (xr, yr) mw mh)[i]? =
        some { box := [(bd.getD (i * 4 + 1) 0, bd.getD (i * 4) 0),
                       (bd.getD (i * 4 + 3) 0, bd.getD (i * 4) 0),
                       (bd.getD (i * 4 + 3) 0, bd.getD (i * 4 + 2) 0),
                       (bd.getD (i * 4 + 1) 0, bd.getD (i * 4 + 2) 0)],
               typology := lookupTypology tm labels (cd.getD i 0) }) := by
  constructor
  · simp [renderBoxes, List.getElem?_map, List.getElem?_range, hi]
  · rintro rfl rfl rfl rfl hW hH
    simp [renderBoxes, List.getElem?_map, List.getElem?_range, hi,
      div_self hW, div_self hH]

/-- Witness for `renderBoxes_rebase`: a box on a square image with unit
ratios and matching model dimensions maps to itself. -/
theorem renderBoxes_rebase_witness :
    (renderBoxes (fun _ => some 1) ["a"] 2 2 [1, 2, 3, 4] [(9 : ℚ)/10] [0]
        (1, 1) 2 2)[0]? =
      some { box := [(([1, 2, 3, 4] : List ℚ).getD (0 * 4 + 1) 0,
                      ([1, 2, 3, 4] : List ℚ).getD (0 * 4) 0),
                     (([1, 2, 3, 4] : List ℚ).getD (0 * 4 + 3) 0,
                      ([1, 2, 3, 4] : List ℚ).getD (0 * 4) 0),
                     (([1, 2, 3, 4] : List ℚ).getD (0 * 4 + 3) 0,
                      ([1, 2, 3, 4] : List ℚ).getD (0 * 4 + 2) 0),
                     (([1, 2, 3, 4] : List ℚ).getD (0 * 4 + 1) 0,
                      ([1, 2, 3, 4] : List ℚ).getD (0 * 4 + 2) 0)],
             typology := lookupTypology (fun _ => some (1 : ℕ)) ["a"]
               (([0] : List ℕ).getD 0 0) } :=
  (renderBoxes_rebase (fun _ => some (1 : ℕ)) ["a"] 2 2 [1, 2, 3, 4]
    [(9 : ℚ)/10] [0] 1 1 2 2 0 (by simp)).2 rfl rfl rfl rfl
    (by norm_num) (by norm_num)

/-- C9: `renderBoxes` returns exactly one annotation per input detection, in
input order (the length of the output equals the length of `scores_data`),
and an empty detection set yields the empty annotation list rather than an
error. -/
theorem renderBoxes_count {τ : Type} (tm : String → Option τ)
    (labels : List String) (W H : ℚ) (bd sd : List ℚ) (cd : List ℕ)
    (r : ℚ × ℚ) (mw mh : ℚ) :
    (renderBoxes tm labels W H bd sd cd r mw mh).length = sd.length ∧
    renderBoxes tm labels W H bd [] cd r mw mh = [] := by
  constructor <;> simp [renderBoxes]

/-- C10: the annotations emitted by `renderBoxes` do not depend on the score
values — any two score arrays of the same length produce identical
annotation lists (scores enter only through their count). -/
theorem renderBoxes_score_noninterference {τ : Type} (tm : String → Option τ)
    (labels : List String) (W H : ℚ) (bd : List ℚ) (cd : List ℕ)
    (r : ℚ × ℚ) (mw mh : ℚ) (s1 s2 : List ℚ) (h : s1.length = s2.length) :
    renderBoxes tm labels W H bd s1 cd r mw mh =
      renderBoxes tm labels W H bd s2 cd r mw mh := by
  unfold renderBoxes
  rw [h]

/-- Witness for `renderBoxes_score_noninterference` at two concrete score
arrays of length one. -/
theorem renderBoxes_score_noninterference_witness :
    renderBoxes (fun _ => some 1) ["a"] 2 2 [1, 2, 3, 4] [(1 : ℚ)/2] [0]
        (1, 1) 2 2 =
      renderBoxes (fun _ => some (1 : ℕ)) ["a"] 2 2 [1, 2, 3, 4] [(9 : ℚ)/10]
        [0] (1, 1) 2 2 :=
  renderBoxes_score_noninterference (fun _ => some (1 : ℕ)) ["a"] 2 2
    [1, 2, 3, 4] [0] (1, 1) 2 2 [(1 : ℚ)/2] [(9 : ℚ)/10] rfl

/-- A label-to-type mapping that maps only the label `"a"`, leaving `"b"`
unmapped, as in the spec's `UnmappedClass` scenario. -/
def typeMapOnlyA : String → Option ℕ :=
  fun s => if s = "a" then some 7 else none

/-- C6 evaluation: with `labels = ["a", "b"]` and a mapping lacking `"b"`, a
surviving detection with `classId = 1` is not rejected — `renderBoxes`
silently emits an annotation record whose `typology` is `none` (JavaScript
`undefined`), contradicting the spec's requirement that an unmapped class
raise an explicit error. -/
theorem renderBoxes_unmapped_class_emits_none :
    renderBoxes typeMapOnlyA ["a", "b"] 100 100 [10, 20, 30, 40]
        [(9 : ℚ)/10] [1] (1, 1) 100 100 =
      [{ box := [(20, 10), (40, 10), (40, 30), (20, 30)],
         typology := none }] := by
  norm_num [renderBoxes, typeMapOnlyA, lookupTypology, List.range_succ]
  intro h
  exact absurd h (by decide)

/-! ## Suppression Stage (`detect`, popup.js line 458)

`detect` calls `tf.image.nonMaxSuppressionAsync(boxes, scores, 500, 0.45,
0.2)`.  The suppression algorithm itself is TensorFlow.js library code, not
part of this repository.  Modelled from the spec: standard greedy NMS —
candidates are the detections with score strictly above `scoreThreshold`,
sorted by descending score with ties broken by the lower original index; the
highest-remaining candidate is selected (up to `maxOutputSize` selections),
and a candidate whose IoU with an already-selected box exceeds
`iouThreshold` is discarded. -/

/-- A decoded box in the `(y1, x1, y2, x2)` order produced by the box
decoder and consumed by the suppression stage. -/
structure NBox where
  y1 : ℚ
  x1 : ℚ
  y2 : ℚ
  x2 : ℚ
deriving Repr, DecidableEq

/-- Out-of-range default box. -/
def nboxZero : NBox := ⟨0, 0, 0, 0⟩

/-- Area of a box; coordinates are normalised through `min`/`max` so either
corner ordering is accepted, as in the reference IoU computation. -/
def boxArea (a : NBox) : ℚ :=
  (max a.y1 a.y2 - min a.y1 a.y2) * (max a.x1 a.x2 - min a.x1 a.x2)

/-- Intersection area of two boxes (clamped at zero when they do not
overlap). -/
def interArea (a b : NBox) : ℚ :=
  max (min (max a.y1 a.y2) (max b.y1 b.y2) -
      max (min a.y1 a.y2) (min b.y1 b.y2)) 0 *
    max (min (max a.x1 a.x2) (max b.x1 b.x2) -
      max (min a.x1 a.x2) (min b.x1 b.x2)) 0

/-- Intersection over union of two boxes; zero when either box is
degenerate. -/
def iou (a b : NBox) : ℚ :=
  if boxArea a ≤ 0 ∨ boxArea b ≤ 0 then 0
  else interArea a b / (boxArea a + boxArea b - interArea a b)

/-- Candidate ordering for the NMS sort: higher score first, ties broken by
the lower original index. -/
def candLE (scores : List ℚ) (a b : ℕ) : Prop :=
  scores.getD b 0 < scores.getD a 0 ∨
    (scores.getD a 0 = scores.getD b 0 ∧ a ≤ b)

instance candLE.instDecidable (scores : List ℚ) (a b : ℕ) :
    Decidable (candLE scores a b) := by
  unfold candLE
  infer_instance

/-- Insert an index into a candidate list sorted by `r`. -/
def sortInsert (r : ℕ → ℕ → Prop) [DecidableRel r] (a : ℕ) :
    List ℕ → List ℕ
  | [] => [a]
  | b :: t => if r a b then a :: b :: t else b :: sortInsert r a t

/-- Insertion sort of candidate indices by the relation `r`. -/
def sortBy (r : ℕ → ℕ → Prop) [DecidableRel r] : List ℕ → List ℕ
  | [] => []
  | a :: t => sortInsert r a (sortBy r t)

/-- Greedy selection loop: walk the sorted candidates, keeping `c` when
fewer than `maxOut` boxes are selected so far and `c`'s IoU with every
already-selected box is at most `iouThr`; `sel` holds the selections so far
in reverse order. -/
def nmsLoop (boxes : List NBox) (iouThr : ℚ) (maxOut : ℕ) :
    List ℕ → List ℕ → List ℕ
  | [], sel => sel.reverse
  | c :: rest, sel =>
    if sel.length < maxOut ∧
        ∀ s ∈ sel,
          iou (boxes.getD s nboxZero) (boxes.getD c nboxZero) ≤ iouThr then
      nmsLoop boxes iouThr maxOut rest (c :: sel)
    else
      nmsLoop boxes iouThr maxOut rest sel

/-- The suppression stage: filter by score, sort, then greedily select. -/
def suppress (boxes : List NBox) (scores : List ℚ) (maxOutputSize : ℕ)
    (iouThreshold scoreThreshold : ℚ) : List ℕ :=
  let candidates := (List.range scores.length).filter
    fun i => decide (scoreThreshold < scores.getD i 0)
  nmsLoop boxes iouThreshold maxOutputSize
    (sortBy (candLE scores) candidates) []

/-- The suppression call of `detect` (line 458): the parameters are
`maxOutputSize = 500`, `iouThreshold = 0.45`, `scoreThreshold = 0.2`. -/
def detectSuppress (boxes : List NBox) (scores : List ℚ) : List ℕ :=
  suppress boxes scores 500 (45/100) (2/10)

lemma candLE_trans (scores : List ℚ) :
    ∀ a b c, candLE scores a b → candLE scores b c → candLE scores a c := by
  intro a b c hab hbc
  rcases hab with h1 | ⟨h1, h1'⟩ <;> rcases hbc with h2 | ⟨h2, h2'⟩
  · exact Or.inl (h2.trans h1)
  · exact Or.inl (h2 ▸ h1)
  · exact Or.inl (lt_of_lt_of_le h2 (le_of_eq h1.symm))
  · exact Or.inr ⟨h1.trans h2, h1'.trans h2'⟩

lemma candLE_total (scores : List ℚ) :
    ∀ a b, candLE scores a b ∨ candLE scores b a := by
  intro a b
  rcases lt_trichotomy (scores.getD a 0) (scores.getD b 0) with h | h | h
  · exact Or.inr (Or.inl h)
  · rcases Nat.le_total a b with hab | hba
    · exact Or.inl (Or.inr ⟨h, hab⟩)
    · exact Or.inr (Or.inr ⟨h.symm, hba⟩)
  · exact Or.inl (Or.inl h)

lemma mem_sortInsert (r : ℕ → ℕ → Prop) [DecidableRel r] (a x : ℕ)
    (l : List ℕ) : x ∈ sortInsert r a l ↔ x = a ∨ x ∈ l := by
  induction l with
  | nil => simp [sortInsert]
  | cons b t ih =>
    by_cases h : r a b
    · simp [sortInsert, h]
    · simp only [sortInsert, if_neg h, List.mem_cons, ih]
      tauto

lemma mem_sortBy (r : ℕ → ℕ → Prop) [DecidableRel r] (x : ℕ) (l : List ℕ) :
    x ∈ sortBy r l ↔ x ∈ l := by
  induction l with
  | nil => simp [sortBy]
  | cons a t ih => simp [sortBy, mem_sortInsert, ih]

lemma sortInsert_pairwise (r : ℕ → ℕ → Prop) [DecidableRel r]
    (htrans : ∀ a b c, r a b → r b c → r a c)
    (htot : ∀ a b, r a b ∨ r b a) (a : ℕ) (l : List ℕ)
    (h : l.Pairwise r) : (sortInsert r a l).Pairwise r := by
  induction l with
  | nil => simp [sortInsert]
  | cons b t ih =>
    obtain ⟨hb, ht⟩ := List.pairwise_cons.mp h
    by_cases hab : r a b
    · rw [show sortInsert r a (b :: t) = a :: b :: t by
        simp only [sortInsert]; rw [if_pos hab]]
      refine List.pairwise_cons.mpr ⟨?_, h⟩
      intro x hx
      rcases List.mem_cons.mp hx with rfl | hx
      · exact hab
      · exact htrans a b x hab (hb x hx)
    · rw [show sortInsert r a (b :: t) = b :: sortInsert r a t by
        simp only [sortInsert]; rw [if_neg hab]]
      refine List.pairwise_cons.mpr ⟨?_, ih ht⟩
      intro x hx
      rcases (mem_sortInsert r a x t).mp hx with hxa | hx
      · rw [hxa]
        exact (htot a b).resolve_left hab
      · exact hb x hx

lemma sortBy_pairwise (r : ℕ → ℕ → Prop) [DecidableRel r]
    (htrans : ∀ a b c, r a b → r b c → r a c)
    (htot : ∀ a b, r a b ∨ r b a) (l : List ℕ) :
    (sortBy r l).Pairwise r := by
  induction l with
  | nil => simp [sortBy]
  | cons a t ih => exact sortInsert_pairwise r htrans htot a _ ih

lemma nmsLoop_length (boxes : List NBox) (thr : ℚ) (maxOut : ℕ) :
    ∀ cs sel, (nmsLoop boxes thr maxOut cs sel).length ≤
      max sel.length maxOut := by
  intro cs
  induction cs with
  | nil =>
    intro sel
    simp only [nmsLoop, List.length_reverse]
    exact le_max_left _ _
  | cons c rest ih =>
    intro sel
    simp only [nmsLoop]
    by_cases h : sel.length < maxOut ∧
        ∀ s ∈ sel,
          iou (boxes.getD s nboxZero) (boxes.getD c nboxZero) ≤ thr
    · rw [if_pos h]
      have h1 := h.1
      have h2 := ih (c :: sel)
      simp only [List.length_cons] at h2
      omega
    · rw [if_neg h]
      exact ih sel

lemma nmsLoop_subset (boxes : List NBox) (thr : ℚ) (maxOut : ℕ) :
    ∀ cs sel i, i ∈ nmsLoop boxes thr maxOut cs sel →
      i ∈ sel ∨ i ∈ cs := by
  intro cs
  induction cs with
  | nil =>
    intro sel i h
    simp only [nmsLoop, List.mem_reverse] at h
    exact Or.inl h
  | cons c rest ih =>
    intro sel i h
    simp only [nmsLoop] at h
    by_cases hc : sel.length < maxOut ∧
        ∀ s ∈ sel,
          iou (boxes.getD s nboxZero) (boxes.getD c nboxZero) ≤ thr
    · rw [if_pos hc] at h
      rcases ih (c :: sel) i h with hs | hr
      · rcases List.mem_cons.mp hs with rfl | hs
        · exact Or.inr (List.mem_cons_self _ _)
        · exact Or.inl hs
      · exact Or.inr (List.mem_cons_of_mem _ hr)
    · rw [if_neg hc] at h
      rcases ih sel i h with hs | hr
      · exact Or.inl hs
      · exact Or.inr (List.mem_cons_of_mem _ hr)

lemma nmsLoop_append (boxes : List NBox) (thr : ℚ) (maxOut : ℕ) :
    ∀ cs sel, ∃ t, nmsLoop boxes thr maxOut cs sel = sel.reverse ++ t ∧
      t.Sublist cs := by
  intro cs
  induction cs with
  | nil =>
    intro sel
    exact ⟨[], by simp [nmsLoop], List.Sublist.refl _⟩
  | cons c rest ih =>
    intro sel
    by_cases hc : sel.length < maxOut ∧
        ∀ s ∈ sel,
          iou (boxes.getD s nboxZero) (boxes.getD c nboxZero) ≤ thr
    · obtain ⟨t, ht, hsub⟩ := ih (c :: sel)
      refine ⟨c :: t, ?_, List.Sublist.cons₂ c hsub⟩
      rw [show nmsLoop boxes thr maxOut (c :: rest) sel =
          nmsLoop boxes thr maxOut rest (c :: sel) by
        simp only [nmsLoop]; rw [if_pos hc]]
      rw [ht, List.reverse_cons, List.append_assoc]
      rfl
    · obtain ⟨t, ht, hsub⟩ := ih sel
      refine ⟨t, ?_, hsub.cons c⟩
      rw [show nmsLoop boxes thr maxOut (c :: rest) sel =
          nmsLoop boxes thr maxOut rest sel by
        simp only [nmsLoop]; rw [if_neg hc]]
      exact ht

lemma nmsLoop_pairwise (boxes : List NBox) (thr : ℚ) (maxOut : ℕ) :
    ∀ cs sel,
      sel.reverse.Pairwise
        (fun a b =>
          iou (boxes.getD a nboxZero) (boxes.getD b nboxZero) ≤ thr) →
      (nmsLoop boxes thr maxOut cs sel).Pairwise
        (fun a b =>
          iou (boxes.getD a nboxZero) (boxes.getD b nboxZero) ≤ thr) := by
  intro cs
  induction cs with
  | nil =>
    intro sel h
    simpa only [nmsLoop] using h
  | cons c rest ih =>
    intro sel h
    simp only [nmsLoop]
    by_cases hc : sel.length < maxOut ∧
        ∀ s ∈ sel,
          iou (boxes.getD s nboxZero) (boxes.getD c nboxZero) ≤ thr
    · rw [if_pos hc]
      refine ih (c :: sel) ?_
      rw [List.reverse_cons]
      refine List.pairwise_append.mpr ⟨h, by simp, ?_⟩
      intro a ha b hb
      rw [List.mem_singleton] at hb
      subst hb
      exact hc.2 a (List.mem_reverse.mp ha)
    · rw [if_neg hc]
      exact ih sel h

/-- C4: `suppress` performs greedy NMS with configurable parameters; for all
parameter values, every selected index has score strictly above
`scoreThreshold` (so every box scoring below it is excluded), at most
`maxOutputSize` indices are returned, the selection order is non-increasing
in score, and any two selected boxes have IoU at most `iouThreshold` (a
candidate exceeding it against an already-selected box is discarded).
`detect` instantiates the parameters at `500`, `0.45`, `0.2`.  Concretely:
of two coincident boxes (IoU `1 > 0.45`) with scores `0.9` and `0.8` only
the `0.9` box survives; of two disjoint boxes (IoU `0`) both survive; and
three disjoint boxes against a cap of `2` return exactly the two highest
scores, in order. -/
theorem suppress_spec (boxes : List NBox) (scores : List ℚ) (maxOut : ℕ)
    (iouThr scoreThr : ℚ) :
    (∀ i ∈ suppress boxes scores maxOut iouThr scoreThr,
      scoreThr < scores.getD i 0) ∧
    (suppress boxes scores maxOut iouThr scoreThr).length ≤ maxOut ∧
    (suppress boxes scores maxOut iouThr scoreThr).Pairwise
      (fun a b => scores.getD b 0 ≤ scores.getD a 0) ∧
    (suppress boxes scores maxOut iouThr scoreThr).Pairwise
      (fun a b =>
        iou (boxes.getD a nboxZero) (boxes.getD b nboxZero) ≤ iouThr) ∧
    detectSuppress boxes scores =
      suppress boxes scores 500 (45/100) (2/10) ∧
    detectSuppress [⟨0, 0, 10, 10⟩, ⟨0, 0, 10, 10⟩] [(9 : ℚ)/10, 8/10] =
      [0] ∧
    detectSuppress [⟨0, 0, 10, 10⟩, ⟨20, 20, 30, 30⟩] [(9 : ℚ)/10, 8/10] =
      [0, 1] ∧
    suppress [⟨0, 0, 10, 10⟩, ⟨20, 20, 30, 30⟩, ⟨40, 40, 50, 50⟩]
      [(9 : ℚ)/10, 8/10, 7/10] 2 (45/100) (2/10) = [0, 1] := by
  refine ⟨?_, ?_, ?_, ?_, rfl, ?_, ?_, ?_⟩
  · intro i hi
    rcases nmsLoop_subset boxes iouThr maxOut _ [] i hi with h | h
    · exact absurd h (List.not_mem_nil i)
    · have := (mem_sortBy (candLE scores) i _).mp h
      have := List.mem_filter.mp this
      simpa using this.2
  · have := nmsLoop_length boxes iouThr maxOut
      (sortBy (candLE scores)
        ((List.range scores.length).filter
          fun i => decide (scoreThr < scores.getD i 0))) []
    simpa [suppress] using this
  · obtain ⟨t, ht, hsub⟩ := nmsLoop_append boxes iouThr maxOut
      (sortBy (candLE scores)
        ((List.range scores.length).filter
          fun i => decide (scoreThr < scores.getD i 0))) []
    have hsorted := sortBy_pairwise (candLE scores) (candLE_trans scores)
      (candLE_total scores)
      ((List.range scores.length).filter
        fun i => decide (scoreThr < scores.getD i 0))
    have hpair : t.Pairwise (candLE scores) := hsorted.sublist hsub
    have hres : suppress boxes scores maxOut iouThr scoreThr = t := by
      simpa [suppress] using ht
    rw [hres]
    refine hpair.imp ?_
    intro a b hab
    rcases hab with h | ⟨h, _⟩
    · exact h.le
    · exact h.ge
  · have := nmsLoop_pairwise boxes iouThr maxOut
      (sortBy (candLE scores)
        ((List.range scores.length).filter
          fun i => decide (scoreThr < scores.getD i 0))) []
      (by simp)
    simpa [suppress] using this
  · norm_num [detectSuppress, suppress, sortBy, sortInsert, candLE, nmsLoop,
      iou, boxArea, interArea, nboxZero, List.range_succ, max_def, min_def]
  · norm_num [detectSuppress, suppress, sortBy, sortInsert, candLE, nmsLoop,
      iou, boxArea, interArea, nboxZero, List.range_succ, max_def, min_def]
  · norm_num [suppress, sortBy, sortInsert, candLE, nmsLoop,
      iou, boxArea, interArea, nboxZero, List.range_succ, max_def, min_def]

/-- Witness for `suppress_spec`: at the coincident-boxes input the selected
index `0` indeed has score above the `0.2` threshold. -/
theorem suppress_spec_witness :
    (2 : ℚ)/10 < [(9 : ℚ)/10, 8/10].getD 0 0 := by
  have h := suppress_spec [⟨0, 0, 10, 10⟩, ⟨0, 0, 10, 10⟩]
    [(9 : ℚ)/10, 8/10] 500 (45/100) (2/10)
  refine h.1 0 ?_
  have h6 := h.2.2.2.2.2.1
  have h5 := h.2.2.2.2.1
  rw [h5] at h6
  rw [h6]
  exact List.mem_singleton.mpr rfl

/-! ## Tensor lifecycle of a `detect` call (popup.js lines 423-471)

Buffer lifetime is modelled by explicit state passing: the state is the list
of live buffer identifiers, an `alloc` appends an identifier and a `dispose`
removes it.  The granularity is the named tensors of `detect` that survive
their enclosing `tf.tidy` blocks (the tidy-internal intermediates are
disposed by `tidy` itself and are not part of the state). -/

/-- A tensor-engine operation. -/
inductive TensorOp
  | alloc (id : String)
  | dispose (id : String)
deriving Repr, DecidableEq

/-- Run a sequence of tensor operations over the live-buffer list. -/
def runOps : List TensorOp → List String → List String
  | [], live => live
  | TensorOp.alloc id :: rest, live => runOps rest (live ++ [id])
  | TensorOp.dispose id :: rest, live => runOps rest (live.erase id)

/-- The tensor operations the normal return path of `detect` actually
executes: `input` from `preprocess`, `res` from `model.execute`, `transRes`,
the `boxes`, `scores` and `classes` tidy results, the `nms` index tensor,
and the three `gather` results.  The cleanup
`tf.dispose([res, transRes, boxes, scores, classes, nms])` and
`tf.engine().endScope()` of lines 468-470 are commented out and are placed
after the `return` statement of line 466, so no dispose operation is ever
executed on any path. -/
def detectOps : List TensorOp :=
  [TensorOp.alloc "input", TensorOp.alloc "res", TensorOp.alloc "transRes",
   TensorOp.alloc "boxes", TensorOp.alloc "scores", TensorOp.alloc "classes",
   TensorOp.alloc "nms", TensorOp.alloc "boxesGathered",
   TensorOp.alloc "scoresGathered", TensorOp.alloc "classesGathered"]

/-- C7 evaluation: starting a `detect` call with no live buffers, every
intermediate tensor is still live when the call returns — the live set after
the call is the full allocation list, not the (empty) set before it, because
the dispose/endScope cleanup is commented out and unreachable.  This
contradicts the claim that all intermediate tensors are released when the
call ends. -/
theorem detect_leaks_tensors :
    runOps detectOps [] =
      ["input", "res", "transRes", "boxes", "scores", "classes", "nms",
       "boxesGathered", "scoresGathered", "classesGathered"] ∧
    runOps detectOps [] ≠ [] := by
  constructor
  · rfl
  · decide

/-- C8 evaluation: an image of width `0` and height `10` is not rejected —
`preprocess` computes the padding (right pad `10`, square side `10`) and
proceeds; no geometry validation exists anywhere in `preprocess` or
`detect`, contradicting the claim that a non-positive dimension fails before
preprocessing begins.  (In the source the subsequent `xRatio = maxSize / w`
is the JavaScript division `10 / 0 = Infinity`, again without any error.) -/
theorem preprocess_no_geometry_validation :
    (preprocess 0 10).padTop = 0 ∧
    (preprocess 0 10).padLeft = 0 ∧
    (preprocess 0 10).padBottom = 0 ∧
    (preprocess 0 10).padRight = 10 ∧
    (preprocess 0 10).squareSide = 10 := by
  refine ⟨rfl, rfl, ?_, ?_, rfl⟩ <;> simp [preprocess]

end Popup
